import Mathlib

/-!
Verification development for the text-formatting pipeline in `api/format.js` of
the dyslexia-formatter-api repository.

Strings are modelled as `List Char` (JavaScript strings spread into code points,
matching `Char`).  The regular expressions of the source are hand-translated
into single-pass scanners over `List Char`; every definition is structurally
recursive so that concrete inputs evaluate inside the kernel.

Modelling conventions, fixed once here:
* JavaScript numbers are modelled as `ℚ` (every float is a rational); the
  Flesch score formula and the Brownian walk are exact rational arithmetic.
* `Math.random` / `randn()` (Box-Muller) is modelled as an arbitrary sample
  sequence `noise : ℕ → ℚ`; theorems quantify over all such sequences.
* `gaussianAsym(pos - center) > 0.8` (source lines 53-59, 111) is a fixed
  boolean predicate of the integer offset `pos - center`, computed with
  floating-point `exp`.  It is abstracted as a parameter `emph : ℤ → Bool`;
  the theorems below hold for every such predicate, hence in particular for
  the one the source computes.  No claim depends on its actual values.
* `toLowerCase` is modelled by `toLowerCaseJS`: ASCII `A`-`Z` map down by 32,
  and U+0130 (Latin capital I with dot above) maps to `i` followed by U+0307,
  its unconditional multi-character lowercase mapping from SpecialCasing.txt,
  the only such mapping in the lowercase direction; every other character is
  modelled as itself.  No other character of Unicode has a default lowercase
  mapping whose output contains one of the letters `a,e,i,o,u,y`, and a
  non-vowel character turning into a different non-empty non-vowel string is
  indistinguishable from the identity for `countSyllables`, the one consumer,
  which only observes the run structure of `[aeiouy]` in the result.
-/

namespace DysFormat

/-- Strings as lists of code points. -/
abbrev Str := List Char

/-- Convert a Lean string literal to the model representation. -/
def str (s : String) : Str := s.toList

/-- The JavaScript regex class `\s` (whitespace), as used by `\s+`, `trim`,
and the tokenizer. -/
def isSpaceCh (c : Char) : Bool :=
  let n := c.toNat
  (9 ≤ n && n ≤ 13) || n == 32 || n == 160 || n == 0x1680 ||
    (0x2000 ≤ n && n ≤ 0x200A) || n == 0x2028 || n == 0x2029 ||
    n == 0x202F || n == 0x205F || n == 0x3000 || n == 0xFEFF

/-- The JavaScript regex class `\w`: ASCII letters, digits and underscore
(the `u` flag does not change this class). -/
def isWordCh (c : Char) : Bool :=
  let n := c.toNat
  (48 ≤ n && n ≤ 57) || (65 ≤ n && n ≤ 90) || n == 95 || (97 ≤ n && n ≤ 122)

/-- Sentence-terminal characters, the class `[.!?]`. -/
def isTermCh (c : Char) : Bool := c == '.' || c == '!' || c == '?'

/-- Lower-case vowels, the class `[aeiouy]` used by `countSyllables`. -/
def isLowVowel (c : Char) : Bool :=
  c == 'a' || c == 'e' || c == 'i' || c == 'o' || c == 'u' || c == 'y'

/-- Both-case vowels, the class `[aeiouyAEIOUY]` of the tokenizer regex. -/
def isVowelCh (c : Char) : Bool :=
  isLowVowel c || c == 'A' || c == 'E' || c == 'I' || c == 'O' || c == 'U' || c == 'Y'

/-- JavaScript `toLowerCase` at the character level: `A`-`Z` map down by 32,
and U+0130 maps to the two-character string `i` + U+0307 (combining dot
above), its unconditional special lowercase mapping, which `toLowerCase`
applies.  Every other character is modelled as itself: no other character has
a default lowercase mapping that introduces a vowel letter, and replacing a
non-vowel by another non-empty non-vowel string cannot change the vowel-run
structure `countSyllables` reads off the result. -/
def lowerChars (c : Char) : Str :=
  if 65 ≤ c.toNat && c.toNat ≤ 90 then [Char.ofNat (c.toNat + 32)]
  else if c.toNat = 0x130 then [Char.ofNat 0x69, Char.ofNat 0x307]
  else [c]

/-- JavaScript `word.toLowerCase()`. -/
def toLowerCaseJS (l : Str) : Str := l.flatMap lowerChars

/-- JavaScript `String.prototype.trim`: drop whitespace from both ends. -/
def trim (l : Str) : Str :=
  ((l.dropWhile isSpaceCh).reverse.dropWhile isSpaceCh).reverse

/-- JavaScript `Array.prototype.join(" ")` on a list of strings. -/
def joinSp : List Str → Str
  | [] => []
  | [w] => w
  | w :: x :: ws => w ++ ' ' :: joinSp (x :: ws)

/-- Scanner state for `split` on maximal delimiter runs: `some cur` carries the
reversed current piece, `none` means the scanner is inside a delimiter run. -/
def srGo (p : Char → Bool) : Option Str → Str → List Str
  | none, [] => [[]]
  | some cur, [] => [cur.reverse]
  | none, c :: r => if p c then srGo p none r else srGo p (some [c]) r
  | some cur, c :: r =>
      if p c then cur.reverse :: srGo p none r else srGo p (some (c :: cur)) r

/-- JavaScript `text.split(/X+/)` for a character class `X`: split on maximal
runs of delimiter characters (used with `[.!?]` and with `\s`). -/
def splitRuns (p : Char → Bool) (l : Str) : List Str := srGo p (some []) l

/-- Scanner state for `match(/X+/g)`: `some cur` carries the reversed current
run, `none` means the scanner is between matches. -/
def mrGo (p : Char → Bool) : Option Str → Str → List Str
  | none, [] => []
  | some cur, [] => [cur.reverse]
  | none, c :: r => if p c then mrGo p (some [c]) r else mrGo p none r
  | some cur, c :: r =>
      if p c then mrGo p (some (c :: cur)) r else cur.reverse :: mrGo p none r

/-- JavaScript `text.match(/X+/g)` for a character class `X`: the list of
maximal runs of `X` characters (empty list when there is no match). -/
def matchRuns (p : Char → Bool) (l : Str) : List Str := mrGo p none l

/-- Scanner for `split(/,\s*/)`: `none` means a comma was just consumed and
following whitespace is being skipped. -/
def scGo : Option Str → Str → List Str
  | none, [] => [[]]
  | some cur, [] => [cur.reverse]
  | none, c :: r =>
      if isSpaceCh c then scGo none r
      else if c == ',' then [] :: scGo none r
      else scGo (some [c]) r
  | some cur, c :: r =>
      if c == ',' then cur.reverse :: scGo none r else scGo (some (c :: cur)) r

/-- JavaScript `trimmed.split(/,\s*/)` of source line 38. -/
def splitComma (l : Str) : List Str := scGo (some []) l

/-- Scanner state for the sentence split with lookbehind: `norm prevTerm`
carries whether the previous character was sentence-terminal, `gap` means the
scanner is inside a whitespace run that follows a terminal character. -/
inductive AdjSt
  | norm (prevTerm : Bool)
  | gap

/-- Scanner for `text.split(/(?<=[.!?])\s+/)` of source line 29: a whitespace
run is a split point exactly when its first character directly follows one of
`.`, `!`, `?`; the punctuation stays with the preceding piece and the matched
whitespace is consumed. -/
def saGo : AdjSt → Str → List Str
  | _, [] => [[]]
  | AdjSt.gap, c :: r =>
      if isSpaceCh c then saGo AdjSt.gap r
      else
        match saGo (AdjSt.norm (isTermCh c)) r with
        | [] => [[c]]
        | x :: xs => (c :: x) :: xs
  | AdjSt.norm pt, c :: r =>
      if pt && isSpaceCh c then [] :: saGo AdjSt.gap r
      else
        match saGo (AdjSt.norm (isTermCh c)) r with
        | [] => [[c]]
        | x :: xs => (c :: x) :: xs

/-- JavaScript `text.split(/(?<=[.!?])\s+/)`. -/
def splitAdjust (l : Str) : List Str := saGo (AdjSt.norm false) l

/-- Source lines 7-10, `countSyllables(word)`: the number of maximal runs of
`[aeiouy]` in the lower-cased word, or 1 when there is no such run
(`match` returns null). -/
def countSyllables (w : Str) : ℕ :=
  let ms := matchRuns isLowVowel (toLowerCaseJS w)
  if ms = [] then 1 else ms.length

/-- Specification-side count of maximal vowel runs, written independently of
the scanner: the number of positions that start a run, i.e. positions holding a
case-insensitive vowel whose predecessor (if any) is not one. -/
def runStartsAux (p : Char → Bool) : Bool → Str → ℕ
  | _, [] => 0
  | prev, c :: r => (if p c && !prev then 1 else 0) + runStartsAux p (p c) r

/-- Number of maximal contiguous runs of case-insensitive vowel characters
(the twelve letters `a,e,i,o,u,y` in either case, the reading of the claim)
in a word. -/
def maximalVowelRuns (w : Str) : ℕ := runStartsAux isVowelCh false w

/-- Source line 21, `Math.round(score * 100) / 100`: JavaScript `Math.round`
rounds half towards positive infinity, i.e. `x ↦ ⌊x + 1/2⌋`. -/
def round2 (q : ℚ) : ℚ := ((⌊q * 100 + 1/2⌋ : ℤ) : ℚ) / 100

/-- Source line 14: sentences are the pieces of `split(/[.!?]+/)` whose trim
is nonempty. -/
def sentencesOf (text : Str) : List Str :=
  (splitRuns isTermCh text).filter (fun s => trim s ≠ [])

/-- Source line 15: words are the maximal `\w` runs, `match(/\w+/g) || []`. -/
def wordsOf (text : Str) : List Str := matchRuns isWordCh text

/-- Source lines 13-22, `fleschReadingEase(text)`: returns 0 when the sentence
count or the word count is zero, otherwise the rounded Flesch formula. -/
def fleschReadingEase (text : Str) : ℚ :=
  let numSentences := (sentencesOf text).length
  let numWords := (wordsOf text).length
  let totalSyllables := (wordsOf text).foldl (fun s w => s + countSyllables w) 0
  if numSentences = 0 ∨ numWords = 0 then 0
  else round2 (206.835 - 1.015 * ((numWords : ℚ) / (numSentences : ℚ))
        - 84.6 * ((totalSyllables : ℚ) / (numWords : ℚ)))

/-- Source lines 31-48, the body of the `for (const sent of sentences)` loop of
`adjustReadability`: the list of parts contributed by one sentence.  The
variable `parts` of the source is `splitComma (trim sent)` when that has two
or more pieces and otherwise the two halves of the word list split at
`Math.floor(words.length / 2)`; each part is trimmed and dropped when
empty. -/
def sentenceParts (lower upper : ℚ) (sent : Str) : List Str :=
  if trim sent = [] then []
  else if lower ≤ fleschReadingEase (trim sent) ∧ fleschReadingEase (trim sent) ≤ upper then
    [trim sent]
  else
    ((if (splitComma (trim sent)).length ≤ 1 then
        [joinSp ((splitRuns isSpaceCh (trim sent)).take
            ((splitRuns isSpaceCh (trim sent)).length / 2)),
         joinSp ((splitRuns isSpaceCh (trim sent)).drop
            ((splitRuns isSpaceCh (trim sent)).length / 2))]
      else splitComma (trim sent)).map trim).filter (fun part => part ≠ [])

/-- Source lines 25-51, `adjustReadability(text, lower, upper)`: return the
text unchanged when it is empty or its whole-text score is inside the band;
otherwise resegment sentence by sentence and join the parts with single
spaces.  The source calls it with the default band 74..82. -/
def adjustReadability (text : Str) (lower upper : ℚ) : Str :=
  if text = [] then text
  else if lower ≤ fleschReadingEase text ∧ fleschReadingEase text ≤ upper then text
  else joinSp ((splitAdjust text).flatMap (sentenceParts lower upper))

/-- Token kinds of the tokenizer, `"sep"` and `"syll"` in the source. -/
inductive TokType
  | sep
  | syll
deriving DecidableEq, Repr

/-- Source token objects `{ type, text }`. -/
structure Token where
  type : TokType
  text : Str
deriving DecidableEq, Repr

/-- Lexer state for the regex `/\w+|[^\w\s]|\s+/gu`: currently inside a word
run, inside a whitespace run, or at a fresh position. -/
inductive LexSt
  | idle
  | word (cur : Str)
  | white (cur : Str)

/-- Single-pass scanner equivalent to `text.matchAll(/\w+|[^\w\s]|\s+/gu)`:
maximal word runs, maximal whitespace runs, and single other characters, in
input order, covering every character. -/
def lexGo : LexSt → Str → List Str
  | LexSt.idle, [] => []
  | LexSt.word cur, [] => [cur.reverse]
  | LexSt.white cur, [] => [cur.reverse]
  | st, c :: r =>
    if isWordCh c then
      match st with
      | LexSt.idle => lexGo (LexSt.word [c]) r
      | LexSt.word cur => lexGo (LexSt.word (c :: cur)) r
      | LexSt.white cur => cur.reverse :: lexGo (LexSt.word [c]) r
    else if isSpaceCh c then
      match st with
      | LexSt.idle => lexGo (LexSt.white [c]) r
      | LexSt.word cur => cur.reverse :: lexGo (LexSt.white [c]) r
      | LexSt.white cur => lexGo (LexSt.white (c :: cur)) r
    else
      match st with
      | LexSt.idle => [c] :: lexGo LexSt.idle r
      | LexSt.word cur => cur.reverse :: [c] :: lexGo LexSt.idle r
      | LexSt.white cur => cur.reverse :: [c] :: lexGo LexSt.idle r

/-- The chunk sequence of the tokenizer regex on the whole input. -/
def lexChunks (l : Str) : List Str := lexGo LexSt.idle l

/-- Scanner state for the syllable regex
`/[^V]*[V]+(?:[^V]+(?=[V])|)/g` with `V = [aeiouyAEIOUY]`:
`lead` is inside the leading non-vowel part, `vow` inside the vowel run,
`trail` inside the optional trailing non-vowel part (which is attached to the
match only when a vowel follows it).  Accumulators are reversed. -/
inductive SylSt
  | lead (acc : Str)
  | vow (acc : Str)
  | trail (ab : Str) (cc : Str)

/-- Single-pass scanner equivalent to `tok.match(syllRe)` with the syllable
regex above.  A trailing non-vowel run not followed by a vowel is not part of
any match (the regex engine finds no further match and drops it), and a word
with no vowel yields no match at all. -/
def sylGo : SylSt → Str → List Str
  | SylSt.lead _, [] => []
  | SylSt.vow acc, [] => [acc.reverse]
  | SylSt.trail ab _, [] => [ab.reverse]
  | SylSt.lead acc, x :: r =>
      if isVowelCh x then sylGo (SylSt.vow (x :: acc)) r
      else sylGo (SylSt.lead (x :: acc)) r
  | SylSt.vow acc, x :: r =>
      if isVowelCh x then sylGo (SylSt.vow (x :: acc)) r
      else sylGo (SylSt.trail acc [x]) r
  | SylSt.trail ab cc, x :: r =>
      if isVowelCh x then (ab.reverse ++ cc.reverse) :: sylGo (SylSt.vow [x]) r
      else sylGo (SylSt.trail ab (x :: cc)) r

/-- All matches of the syllable regex in a word run. -/
def syllMatches (l : Str) : List Str := sylGo (SylSt.lead []) l

/-- Source lines 67-74, the per-chunk token construction: whitespace runs and
chunks containing a non-word non-space character become separator tokens
verbatim; word runs are split by the syllable regex, falling back to the whole
run when there is no match (`tok.match(syllRe) || [tok]`). -/
def chunkTokens (tok : Str) : List Token :=
  if (decide (tok ≠ []) && tok.all isSpaceCh) ||
      tok.any (fun c => !(isWordCh c) && !(isSpaceCh c)) then
    [⟨TokType.sep, tok⟩]
  else
    let ps := syllMatches tok
    (if ps = [] then [tok] else ps).map (fun s => ⟨TokType.syll, s⟩)

/-- Source lines 62-77, `tokenizeToSyllables(text)`. -/
def tokenizeToSyllables (text : Str) : List Token :=
  (lexChunks text).flatMap chunkTokens

/-- Concatenation of the token texts, `tokens.map(t => t.text).join("")`. -/
def concatTexts (tokens : List Token) : Str := (tokens.map Token.text).flatten

/-- Source lines 90-96, the loop of `brownianBlockSizes`: `fuel` counts the
remaining iterations (`i = 2 .. nBlocks`), `W` is the running walk sum and `j`
indexes the next noise sample.  Each iteration clamps
`floor(base - |W|)` into the band and appends it. -/
def bbsAux (noise : ℕ → ℚ) (base minSize maxSize : ℤ) : ℕ → ℚ → ℕ → List ℤ
  | 0, _, _ => []
  | fuel + 1, W, j =>
      let W' := W + noise j
      let raw := (⌊(base : ℚ) - |W'|⌋ : ℤ)
      let r1 := if raw < minSize then minSize else raw
      let r2 := if r1 > maxSize then maxSize else r1
      r2 :: bbsAux noise base minSize maxSize fuel W' (j + 1)

/-- Source lines 87-98, `brownianBlockSizes(nBlocks, base, minSize, maxSize)`:
the list starts with the unclamped base and the loop runs for
`i = 2 .. nBlocks`, so it always has `1 + (nBlocks - 1)` entries (one entry
even when `nBlocks = 0`). -/
def brownianBlockSizes (noise : ℕ → ℚ) (nBlocks : ℕ) (base minSize maxSize : ℤ) :
    List ℤ :=
  base :: bbsAux noise base minSize maxSize (nBlocks - 1) 0 0

/-- Source line 104, `Math.ceil(total / 2)` for a natural `total`. -/
def nBlocksFor (total : ℕ) : ℕ := (total + 1) / 2

/-- The emphasis markup `**text**` of source line 112. -/
def mark (text : Str) : Str := str "**" ++ text ++ str "**"

/-- Wrapping of one token, `tokens[i].text` becoming `**text**`. -/
def wrapFn (t : Token) : Token := ⟨t.type, mark t.text⟩

/-- In-place update `tokens[i].text = mark(...)` on the token list; indices
beyond the list leave it unchanged. -/
def updWrap (toks : List Token) (i : ℕ) : List Token :=
  match toks[i]? with
  | some t => toks.set i (wrapFn t)
  | none => toks

/-- Source lines 110-114, `block.forEach((tok_i, pos) => ...)`: wrap the token
at index `tok_i` whenever the emphasis predicate holds of `pos - center`. -/
def wrapBlock (emph : ℤ → Bool) (center : ℕ) : List Token → List ℕ → ℕ → List Token
  | toks, [], _ => toks
  | toks, i :: rest, pos =>
      wrapBlock emph center
        (if emph ((pos : ℤ) - (center : ℤ)) then updWrap toks i else toks) rest (pos + 1)

/-- Source lines 106-116, `sizes.forEach(size => ...)`: `rem` is the suffix
`syllIdxs.slice(idx)` of the syllable index list, so the block
`syllIdxs.slice(idx, idx + size)` is `rem.take size` and advancing `idx` by
`size` drops that prefix from `rem`. -/
def blocksFold (emph : ℤ → Bool) : List Token → List ℕ → List ℤ → List Token
  | toks, _, [] => toks
  | toks, rem, size :: sizes =>
      let block := rem.take size.toNat
      blocksFold emph
        (wrapBlock emph (block.length / 2) toks block 0)
        (rem.drop size.toNat) sizes

/-- Source line 102: indices of the syllable-kind tokens, in order. -/
def syllIdxs (tokens : List Token) : List ℕ :=
  (List.range tokens.length).filter (fun i =>
    match tokens[i]? with
    | some t => t.type == TokType.syll
    | none => false)

/-- Source lines 101-117 up to the final join, `formatSyllables(tokens)` as a
transformation of the token list: block sizes come from
`brownianBlockSizes(Math.ceil(total / 2))` with the default parameters
21, 4, 12. -/
def formatSyllablesToks (emph : ℤ → Bool) (noise : ℕ → ℚ) (tokens : List Token) :
    List Token :=
  let total := (syllIdxs tokens).length
  let sizes := brownianBlockSizes noise (nBlocksFor total) 21 4 12
  blocksFold emph tokens (syllIdxs tokens) sizes

/-- Source line 117, the returned string of `formatSyllables`. -/
def formatSyllables (emph : ℤ → Bool) (noise : ℕ → ℚ) (tokens : List Token) : Str :=
  concatTexts (formatSyllablesToks emph noise tokens)

/-- Source lines 121-125, `processText(text)`: adjust with the default band,
tokenize, format. -/
def processText (emph : ℤ → Bool) (noise : ℕ → ℚ) (text : Str) : Str :=
  formatSyllables emph noise (tokenizeToSyllables (adjustReadability text 74 82))

/-- Source lines 133-141, the per-character mapping of `toUnicodeBold`. -/
def boldChar (c : Char) : Char :=
  let code := c.toNat
  if 65 ≤ code && code ≤ 90 then Char.ofNat (0x1D400 + (code - 65))
  else if 97 ≤ code && code ≤ 122 then Char.ofNat (0x1D41A + (code - 97))
  else if 48 ≤ code && code ≤ 57 then Char.ofNat (0x1D7CE + (code - 48))
  else c

/-- Source lines 133-141, `toUnicodeBold(s)`: `[...s].map(ch => ...).join("")`
spreads by code point, maps each character and concatenates. -/
def toUnicodeBold (s : Str) : Str := s.map boldChar

/-! ## Claim C1 -/

/-- Claim C1 (claimed round-trip of the tokenizer) fails on the code: the
syllable regex attaches a trailing non-vowel run to a match only when a vowel
follows it, so the final consonant run of a word is dropped from every match
and `|| [tok]` does not fire (there was a match).  On the input `cat` the
tokens concatenate to `ca`, not `cat`. -/
theorem c1_roundtrip_fails_at_cat :
    concatTexts (tokenizeToSyllables (str "cat")) = str "ca" ∧
      str "ca" ≠ str "cat" ∧
      syllMatches (str "cat") = [str "ca"] := by
  refine ⟨by decide, by decide, by decide⟩

/-! ## Claim C2 -/

theorem length_bbsAux (noise : ℕ → ℚ) (base minSize maxSize : ℤ) :
    ∀ (fuel : ℕ) (W : ℚ) (j : ℕ),
      (bbsAux noise base minSize maxSize fuel W j).length = fuel := by
  intro fuel
  induction fuel with
  | zero => intro W j; rfl
  | succ n ih => intro W j; simp only [bbsAux, List.length_cons, ih]

theorem mem_bbsAux_bounds (noise : ℕ → ℚ) (base minSize maxSize : ℤ)
    (hband : minSize ≤ maxSize) :
    ∀ (fuel : ℕ) (W : ℚ) (j : ℕ) (s : ℤ),
      s ∈ bbsAux noise base minSize maxSize fuel W j → minSize ≤ s ∧ s ≤ maxSize := by
  intro fuel
  induction fuel with
  | zero => intro W j s hs; simp [bbsAux] at hs
  | succ n ih =>
      intro W j s hs
      simp only [bbsAux, List.mem_cons] at hs
      rcases hs with hs | hs
      · subst hs
        constructor
        · split
          · split <;> omega
          · split <;> omega
        · split
          · split <;> omega
          · split <;> omega
      · exact ih _ _ _ hs

/-- Claim C2, amended: the unamended claim fails at `total = 0` (the list then
still holds the single base entry, see the counterexample below).  For every
`total ≥ 1` and every noise sequence, the block-size list for
`nBlocks = ceil(total / 2)` with the default parameters has length exactly
`nBlocks`, its first element is the unclamped base 21, and every later element
lies in the band 4..12. -/
theorem c2_block_sizes (noise : ℕ → ℚ) (total : ℕ) (htot : 1 ≤ total) :
    (brownianBlockSizes noise (nBlocksFor total) 21 4 12).length = nBlocksFor total ∧
    (brownianBlockSizes noise (nBlocksFor total) 21 4 12).head? = some 21 ∧
    ∀ s ∈ (brownianBlockSizes noise (nBlocksFor total) 21 4 12).tail,
      4 ≤ s ∧ s ≤ 12 := by
  refine ⟨?_, rfl, ?_⟩
  · have h1 : 1 ≤ nBlocksFor total := by
      unfold nBlocksFor; omega
    simp only [brownianBlockSizes, List.length_cons, length_bbsAux]
    omega
  · intro s hs
    exact mem_bbsAux_bounds noise 21 4 12 (by omega) _ _ _ s hs

/-- Claim C2 as stated is false at `total = 0`: `nBlocks = ceil(0 / 2) = 0`,
but the produced list is `[21]` of length 1, not 0. -/
theorem c2_counterexample :
    (brownianBlockSizes (fun _ => 0) (nBlocksFor 0) 21 4 12).length ≠ nBlocksFor 0 ∧
      brownianBlockSizes (fun _ => 0) (nBlocksFor 0) 21 4 12 = [21] := by
  refine ⟨by decide, by decide⟩

/-- Witness for C2 at `total = 5` with the zero noise sequence. -/
theorem c2_witness :
    1 ≤ 5 ∧
    ((brownianBlockSizes (fun _ => (0:ℚ)) (nBlocksFor 5) 21 4 12).length = nBlocksFor 5 ∧
     (brownianBlockSizes (fun _ => (0:ℚ)) (nBlocksFor 5) 21 4 12).head? = some 21 ∧
     ∀ s ∈ (brownianBlockSizes (fun _ => (0:ℚ)) (nBlocksFor 5) 21 4 12).tail,
       4 ≤ s ∧ s ≤ 12) :=
  ⟨by decide, c2_block_sizes (fun _ => 0) 5 (by decide)⟩

/-! ## Claim C3 -/

/-- Claim C3: when the text is empty, or its whole-text readability score lies
inside the band, `adjustReadability` returns the input unchanged. -/
theorem c3_adjust_in_band_id (text : Str) (lower upper : ℚ)
    (h : text = [] ∨ (lower ≤ fleschReadingEase text ∧ fleschReadingEase text ≤ upper)) :
    adjustReadability text lower upper = text := by
  rcases h with h | h
  · simp [adjustReadability, h]
  · unfold adjustReadability
    by_cases h1 : text = []
    · rw [if_pos h1]
    · rw [if_neg h1, if_pos h]

unseal Rat.add Rat.sub Rat.mul Rat.inv Rat.ofScientific in
/-- Witness for C3: the text `happy cats like dogs` scores 75.88, inside the
default band 74..82, and is returned unchanged. -/
theorem c3_witness :
    ((str "happy cats like dogs" = ([] : Str)) ∨
      ((74:ℚ) ≤ fleschReadingEase (str "happy cats like dogs") ∧
        fleschReadingEase (str "happy cats like dogs") ≤ 82)) ∧
    fleschReadingEase (str "happy cats like dogs") = 75.88 ∧
    adjustReadability (str "happy cats like dogs") 74 82 = str "happy cats like dogs" :=
  ⟨Or.inr (by decide), by decide,
    c3_adjust_in_band_id (str "happy cats like dogs") 74 82 (Or.inr (by decide))⟩

/-! ## Claim C6 -/

/-- Claim C6: the score is exactly 0 whenever the sentence count or the word
count is zero; in particular on the empty string and on `...`. -/
theorem c6_flesch_zero_degenerate :
    (∀ text : Str,
      (sentencesOf text).length = 0 ∨ (wordsOf text).length = 0 →
        fleschReadingEase text = 0) ∧
    fleschReadingEase (str "") = 0 ∧
    fleschReadingEase (str "...") = 0 := by
  refine ⟨?_, by decide, by decide⟩
  intro text h
  unfold fleschReadingEase
  rw [if_pos h]

/-- Witness for C6 at the input `...`, which has no words. -/
theorem c6_witness :
    ((sentencesOf (str "...")).length = 0 ∨ (wordsOf (str "...")).length = 0) ∧
      fleschReadingEase (str "...") = 0 :=
  ⟨by decide, c6_flesch_zero_degenerate.1 (str "...") (by decide)⟩

/-! ## Claim C9 -/

/-- Claim C9: on the empty string the whole pipeline is the identity to the
empty string, for every emphasis predicate and every noise sequence: the
adjuster returns the empty string, the tokenizer returns no tokens, and the
formatter concatenates zero texts. -/
theorem c9_processText_empty :
    adjustReadability (str "") 74 82 = str "" ∧
    tokenizeToSyllables (str "") = [] ∧
    ∀ (emph : ℤ → Bool) (noise : ℕ → ℚ), processText emph noise (str "") = str "" :=
  ⟨rfl, rfl, fun _ _ => rfl⟩

/-! ## Claim C7 -/

theorem length_mrGo (p : Char → Bool) :
    ∀ (l : Str),
      (∀ cur : Str, (mrGo p (some cur) l).length = 1 + runStartsAux p true l) ∧
      (mrGo p none l).length = runStartsAux p false l := by
  intro l
  induction l with
  | nil => exact ⟨fun cur => rfl, rfl⟩
  | cons c r ih =>
      constructor
      · intro cur
        by_cases h : p c = true
        · simp [mrGo, h, runStartsAux, (ih.1 (c :: cur))]
        · simp [mrGo, h, runStartsAux, ih.2]; omega
      · by_cases h : p c = true
        · simp [mrGo, h, runStartsAux, (ih.1 [c])]
        · simp [mrGo, h, runStartsAux, ih.2]

theorem char_eq_of_toNat_eq (a b : Char) (h : a.toNat = b.toNat) : a = b := by
  rw [← Char.ofNat_toNat a, ← Char.ofNat_toNat b, h]

theorem char_eq_iff_toNat (d c : Char) (k : ℕ) (hk : c.toNat = k) :
    (d = c) ↔ d.toNat = k := by
  rw [← hk]
  exact ⟨fun h => by rw [h], fun h => char_eq_of_toNat_eq d c h⟩

theorem bool_eq_of_iff {a b : Bool} (h : a = true ↔ b = true) : a = b := by
  cases a <;> cases b <;> simp_all

theorem toNat_charOfNat_low (n : ℕ) (h : n < 0xD800) : (Char.ofNat n).toNat = n := by
  have hv : n.isValidChar := Or.inl h
  simp only [Char.ofNat, hv, dif_pos]
  simp [Char.ofNatAux, Char.toNat, UInt32.toNat, Nat.mod_eq_of_lt (by omega : n < 2 ^ 32)]

theorem isLowVowel_iff_toNat (d : Char) :
    isLowVowel d = true ↔
      (d.toNat = 97 ∨ d.toNat = 101 ∨ d.toNat = 105 ∨ d.toNat = 111 ∨
       d.toNat = 117 ∨ d.toNat = 121) := by
  unfold isLowVowel
  simp only [Bool.or_eq_true, beq_iff_eq, char_eq_iff_toNat d 'a' 97 rfl,
    char_eq_iff_toNat d 'e' 101 rfl, char_eq_iff_toNat d 'i' 105 rfl,
    char_eq_iff_toNat d 'o' 111 rfl, char_eq_iff_toNat d 'u' 117 rfl,
    char_eq_iff_toNat d 'y' 121 rfl]
  tauto

theorem isVowelCh_iff_toNat (d : Char) :
    isVowelCh d = true ↔
      (d.toNat = 97 ∨ d.toNat = 101 ∨ d.toNat = 105 ∨ d.toNat = 111 ∨
       d.toNat = 117 ∨ d.toNat = 121 ∨ d.toNat = 65 ∨ d.toNat = 69 ∨
       d.toNat = 73 ∨ d.toNat = 79 ∨ d.toNat = 85 ∨ d.toNat = 89) := by
  unfold isVowelCh isLowVowel
  simp only [Bool.or_eq_true, beq_iff_eq, char_eq_iff_toNat d 'a' 97 rfl,
    char_eq_iff_toNat d 'e' 101 rfl, char_eq_iff_toNat d 'i' 105 rfl,
    char_eq_iff_toNat d 'o' 111 rfl, char_eq_iff_toNat d 'u' 117 rfl,
    char_eq_iff_toNat d 'y' 121 rfl, char_eq_iff_toNat d 'A' 65 rfl,
    char_eq_iff_toNat d 'E' 69 rfl, char_eq_iff_toNat d 'I' 73 rfl,
    char_eq_iff_toNat d 'O' 79 rfl, char_eq_iff_toNat d 'U' 85 rfl,
    char_eq_iff_toNat d 'Y' 89 rfl]
  tauto

theorem lowerChars_single (c : Char) (hno : c.toNat ≠ 0x130) :
    ∃ d : Char, lowerChars c = [d] ∧ isLowVowel d = isVowelCh c := by
  by_cases hA : (65 ≤ c.toNat && c.toNat ≤ 90) = true
  · have hrange : 65 ≤ c.toNat ∧ c.toNat ≤ 90 := by
      simpa only [Bool.and_eq_true, decide_eq_true_eq] using hA
    refine ⟨Char.ofNat (c.toNat + 32), ?_, ?_⟩
    · unfold lowerChars
      rw [if_pos hA]
    · apply bool_eq_of_iff
      rw [isLowVowel_iff_toNat, isVowelCh_iff_toNat,
        toNat_charOfNat_low (c.toNat + 32) (by omega)]
      omega
  · have hrange : ¬(65 ≤ c.toNat ∧ c.toNat ≤ 90) := by
      simpa only [Bool.and_eq_true, decide_eq_true_eq] using hA
    refine ⟨c, ?_, ?_⟩
    · unfold lowerChars
      rw [if_neg hA, if_neg hno]
    · apply bool_eq_of_iff
      rw [isLowVowel_iff_toNat, isVowelCh_iff_toNat]
      omega

theorem runStartsAux_toLowerCaseJS :
    ∀ (w : Str), (∀ ch ∈ w, ch.toNat ≠ 0x130) → ∀ (prev : Bool),
      runStartsAux isLowVowel prev (toLowerCaseJS w) =
        runStartsAux isVowelCh prev w := by
  intro w
  induction w with
  | nil => intro _ prev; rfl
  | cons c r ih =>
      intro hno prev
      obtain ⟨d, hd, hdv⟩ := lowerChars_single c (hno c (List.mem_cons_self c r))
      have hstep : toLowerCaseJS (c :: r) = d :: toLowerCaseJS r := by
        unfold toLowerCaseJS
        rw [List.flatMap_cons, hd]
        rfl
      rw [hstep]
      simp only [runStartsAux, hdv]
      rw [ih (fun ch hch => hno ch (List.mem_cons_of_mem c hch)) (isVowelCh c)]

theorem countSyllables_eq_runs (w : Str) (hno : ∀ ch ∈ w, ch.toNat ≠ 0x130) :
    (maximalVowelRuns w = 0 → countSyllables w = 1) ∧
    (maximalVowelRuns w ≠ 0 → countSyllables w = maximalVowelRuns w) := by
  have hkey : (matchRuns isLowVowel (toLowerCaseJS w)).length = maximalVowelRuns w := by
    unfold matchRuns maximalVowelRuns
    rw [(length_mrGo isLowVowel (toLowerCaseJS w)).2]
    exact runStartsAux_toLowerCaseJS w hno false
  constructor
  · intro h
    have hnil : matchRuns isLowVowel (toLowerCaseJS w) = [] :=
      List.length_eq_zero.mp (hkey.trans h)
    simp [countSyllables, hnil]
  · intro h
    have hnil : matchRuns isLowVowel (toLowerCaseJS w) ≠ [] := by
      intro hc
      exact h (hkey.symm.trans (by simp [hc]))
    simp [countSyllables, hnil, hkey]

/-- Claim C7, amended: the unamended claim fails on words holding U+0130 (see
the counterexample below), the one character whose JavaScript lowercase
mapping introduces a new vowel letter.  For every word, `countSyllables`
returns a positive integer; for every word with no U+0130 character it equals
the number of maximal contiguous runs of the case-insensitive vowels
`a,e,i,o,u,y`, returning 1 when there is no vowel run; and the three
documented examples hold. -/
theorem c7_count_syllables :
    (∀ w : Str, 0 < countSyllables w) ∧
    (∀ w : Str, (∀ ch ∈ w, ch.toNat ≠ 0x130) →
      (maximalVowelRuns w = 0 → countSyllables w = 1) ∧
      (maximalVowelRuns w ≠ 0 → countSyllables w = maximalVowelRuns w)) ∧
    countSyllables (str "sky") = 1 ∧
    countSyllables (str "banana") = 3 ∧
    countSyllables (str "rhythm") = 1 := by
  refine ⟨?_, fun w hno => countSyllables_eq_runs w hno, by decide, by decide, by decide⟩
  intro w
  simp only [countSyllables]
  split
  · exact Nat.one_pos
  · next h => exact List.length_pos.mpr h

/-- Claim C7 as stated is false of the code on the word made of two U+0130
characters: JavaScript `toLowerCase` maps each to `i` followed by the
combining dot U+0307, so the program counts two vowel runs and returns 2,
while the number of maximal runs of case-insensitive `a,e,i,o,u,y` characters
in the word itself is 0, for which the claim requires the fallback value 1. -/
theorem c7_counterexample :
    countSyllables [Char.ofNat 0x130, Char.ofNat 0x130] = 2 ∧
    maximalVowelRuns [Char.ofNat 0x130, Char.ofNat 0x130] = 0 ∧
    ¬ (∀ w : Str,
        (maximalVowelRuns w = 0 → countSyllables w = 1) ∧
        (maximalVowelRuns w ≠ 0 → countSyllables w = maximalVowelRuns w)) := by
  refine ⟨by decide, by decide, ?_⟩
  intro h
  have h1 := (h [Char.ofNat 0x130, Char.ofNat 0x130]).1 (by decide)
  rw [show countSyllables [Char.ofNat 0x130, Char.ofNat 0x130] = 2 by decide] at h1
  exact absurd h1 (by decide)

/-- Witness for the amended C7: the word `pfft` has no U+0130 and no vowel
run, and the fallback count is 1. -/
theorem c7_witness :
    (∀ ch ∈ str "pfft", ch.toNat ≠ 0x130) ∧
    maximalVowelRuns (str "pfft") = 0 ∧
    countSyllables (str "pfft") = 1 :=
  ⟨by decide, by decide,
    (c7_count_syllables.2.1 (str "pfft") (by decide)).1 (by decide)⟩

/-! ## Claim C8 -/

theorem toNat_charOfNat_high (n : ℕ) (h1 : 0xE000 ≤ n) (h2 : n < 0x110000) :
    (Char.ofNat n).toNat = n := by
  have hv : n.isValidChar := Or.inr ⟨by omega, h2⟩
  simp only [Char.ofNat, hv, dif_pos]
  simp [Char.ofNatAux, Char.toNat, UInt32.toNat, Nat.mod_eq_of_lt (by omega : n < 2 ^ 32)]

/-- Claim C8: `toUnicodeBold` maps each uppercase letter, lowercase letter and
digit through the fixed offsets into the mathematical-bold code-point ranges,
leaves every other character unchanged, and on `AB9` produces the three bold
code points with nothing ASCII left in those positions. -/
theorem c8_to_unicode_bold :
    (∀ c : Char,
      (65 ≤ c.toNat ∧ c.toNat ≤ 90 → (boldChar c).toNat = 0x1D400 + (c.toNat - 65)) ∧
      (97 ≤ c.toNat ∧ c.toNat ≤ 122 → (boldChar c).toNat = 0x1D41A + (c.toNat - 97)) ∧
      (48 ≤ c.toNat ∧ c.toNat ≤ 57 → (boldChar c).toNat = 0x1D7CE + (c.toNat - 48)) ∧
      (¬(65 ≤ c.toNat ∧ c.toNat ≤ 90) → ¬(97 ≤ c.toNat ∧ c.toNat ≤ 122) →
        ¬(48 ≤ c.toNat ∧ c.toNat ≤ 57) → boldChar c = c)) ∧
    (∀ s : Str, toUnicodeBold s = s.map boldChar) ∧
    toUnicodeBold (str "AB9") =
      [Char.ofNat 0x1D400, Char.ofNat 0x1D401, Char.ofNat 0x1D7D7] ∧
    (∀ c ∈ toUnicodeBold (str "AB9"), 127 < c.toNat) := by
  refine ⟨?_, fun s => rfl, by decide, by decide⟩
  intro c
  refine ⟨?_, ?_, ?_, ?_⟩
  · intro h
    have hb : (65 ≤ c.toNat && c.toNat ≤ 90) = true := by
      simp only [Bool.and_eq_true, decide_eq_true_eq]; omega
    simp only [boldChar, hb, if_pos]
    exact toNat_charOfNat_high _ (by omega) (by omega)
  · intro h
    have hb : (65 ≤ c.toNat && c.toNat ≤ 90) = false := by
      simp only [Bool.and_eq_false_iff, decide_eq_false_iff_not]; omega
    have hb2 : (97 ≤ c.toNat && c.toNat ≤ 122) = true := by
      simp only [Bool.and_eq_true, decide_eq_true_eq]; omega
    simp only [boldChar, hb, hb2, if_pos, if_neg, Bool.false_eq_true, not_false_iff]
    exact toNat_charOfNat_high _ (by omega) (by omega)
  · intro h
    have hb : (65 ≤ c.toNat && c.toNat ≤ 90) = false := by
      simp only [Bool.and_eq_false_iff, decide_eq_false_iff_not]; omega
    have hb2 : (97 ≤ c.toNat && c.toNat ≤ 122) = false := by
      simp only [Bool.and_eq_false_iff, decide_eq_false_iff_not]; omega
    have hb3 : (48 ≤ c.toNat && c.toNat ≤ 57) = true := by
      simp only [Bool.and_eq_true, decide_eq_true_eq]; omega
    simp only [boldChar, hb, hb2, hb3, if_pos, if_neg, Bool.false_eq_true, not_false_iff]
    exact toNat_charOfNat_high _ (by omega) (by omega)
  · intro h1 h2 h3
    have hb : (65 ≤ c.toNat && c.toNat ≤ 90) = false := by
      simp only [Bool.and_eq_false_iff, decide_eq_false_iff_not]; omega
    have hb2 : (97 ≤ c.toNat && c.toNat ≤ 122) = false := by
      simp only [Bool.and_eq_false_iff, decide_eq_false_iff_not]; omega
    have hb3 : (48 ≤ c.toNat && c.toNat ≤ 57) = false := by
      simp only [Bool.and_eq_false_iff, decide_eq_false_iff_not]; omega
    simp [boldChar, hb, hb2, hb3]

/-- Witness for C8 at the character `A`. -/
theorem c8_witness :
    (65 ≤ 'A'.toNat ∧ 'A'.toNat ≤ 90) ∧
      (boldChar 'A').toNat = 0x1D400 + ('A'.toNat - 65) :=
  ⟨by decide, (c8_to_unicode_bold.1 'A').1 (by decide)⟩

/-! ## Claims C5 and C10 -/

theorem length_updWrap (toks : List Token) (i : ℕ) :
    (updWrap toks i).length = toks.length := by
  unfold updWrap
  cases h : toks[i]? with
  | none => rfl
  | some t => simp

theorem getElem?_updWrap_ne (toks : List Token) (i j : ℕ) (h : j ≠ i) :
    (updWrap toks i)[j]? = toks[j]? := by
  unfold updWrap
  cases hh : toks[i]? with
  | none => rfl
  | some t => simp [List.getElem?_set_ne (Ne.symm h)]

theorem getElem?_updWrap_self (toks : List Token) (i : ℕ) :
    (updWrap toks i)[i]? = (toks[i]?).map wrapFn := by
  unfold updWrap
  cases hh : toks[i]? with
  | none => simp [hh]
  | some t =>
      have hi : i < toks.length := by
        by_contra hc
        rw [List.getElem?_eq_none (by omega)] at hh
        exact Option.noConfusion hh
      simp [hh, List.getElem?_set_self, hi]

theorem length_wrapBlock (emph : ℤ → Bool) (center : ℕ) :
    ∀ (block : List ℕ) (toks : List Token) (pos : ℕ),
      (wrapBlock emph center toks block pos).length = toks.length := by
  intro block
  induction block with
  | nil => intro toks pos; rfl
  | cons i rest ih =>
      intro toks pos
      rw [wrapBlock, ih]
      by_cases he : emph ((pos : ℤ) - (center : ℤ)) = true
      · simp [he, length_updWrap]
      · simp [he]

theorem getElem?_wrapBlock_not_mem (emph : ℤ → Bool) (center : ℕ) :
    ∀ (block : List ℕ) (toks : List Token) (pos j : ℕ), j ∉ block →
      (wrapBlock emph center toks block pos)[j]? = toks[j]? := by
  intro block
  induction block with
  | nil => intro toks pos j _; rfl
  | cons i rest ih =>
      intro toks pos j hj
      have hji : j ≠ i := fun hc => hj (hc ▸ List.mem_cons_self i rest)
      have hjr : j ∉ rest := fun hc => hj (List.mem_cons_of_mem i hc)
      rw [wrapBlock, ih _ _ _ hjr]
      by_cases he : emph ((pos : ℤ) - (center : ℤ)) = true
      · simp [he, getElem?_updWrap_ne _ _ _ hji]
      · simp [he]

theorem getElem?_wrapBlock (emph : ℤ → Bool) (center : ℕ) :
    ∀ (block : List ℕ) (toks : List Token) (pos j : ℕ), block.Nodup →
      (wrapBlock emph center toks block pos)[j]? = toks[j]? ∨
      (wrapBlock emph center toks block pos)[j]? = (toks[j]?).map wrapFn := by
  intro block
  induction block with
  | nil => intro toks pos j _; exact Or.inl rfl
  | cons i rest ih =>
      intro toks pos j hnd
      have hin : i ∉ rest := (List.nodup_cons.mp hnd).1
      have hndr : rest.Nodup := (List.nodup_cons.mp hnd).2
      rw [wrapBlock]
      by_cases hji : j = i
      · subst hji
        rw [getElem?_wrapBlock_not_mem emph center rest _ _ j hin]
        by_cases he : emph ((pos : ℤ) - (center : ℤ)) = true
        · rw [if_pos he]
          exact Or.inr (getElem?_updWrap_self toks j)
        · rw [if_neg he]
          exact Or.inl rfl
      · have hstep :
            (if emph ((pos : ℤ) - (center : ℤ)) then updWrap toks i else toks)[j]? =
              toks[j]? := by
          by_cases he : emph ((pos : ℤ) - (center : ℤ)) = true
          · simp [he, getElem?_updWrap_ne _ _ _ hji]
          · simp [he]
        rcases ih _ (pos + 1) j hndr with h | h
        · exact Or.inl (h.trans hstep)
        · exact Or.inr (h.trans (by rw [hstep]))

theorem blocksFold_nil_rem (emph : ℤ → Bool) :
    ∀ (sizes : List ℤ) (toks : List Token), blocksFold emph toks [] sizes = toks := by
  intro sizes
  induction sizes with
  | nil => intro toks; rfl
  | cons s ss ih =>
      intro toks
      rw [blocksFold]
      simp only [List.take_nil, List.drop_nil]
      rw [wrapBlock, ih]

theorem blocksFold_spec (emph : ℤ → Bool) (orig : List Token) :
    ∀ (sizes : List ℤ) (toks : List Token) (rem : List ℕ),
      rem.Nodup →
      (∀ j ∈ rem, toks[j]? = orig[j]?) →
      (∀ j ∈ rem, ∃ t, orig[j]? = some t ∧ t.type = TokType.syll) →
      (∀ j : ℕ, toks[j]? = orig[j]? ∨
        ∃ t, orig[j]? = some t ∧ t.type = TokType.syll ∧ toks[j]? = some (wrapFn t)) →
      toks.length = orig.length →
      (blocksFold emph toks rem sizes).length = orig.length ∧
      ∀ j : ℕ, (blocksFold emph toks rem sizes)[j]? = orig[j]? ∨
        ∃ t, orig[j]? = some t ∧ t.type = TokType.syll ∧
          (blocksFold emph toks rem sizes)[j]? = some (wrapFn t) := by
  intro sizes
  induction sizes with
  | nil => intro toks rem _ _ _ hgood hlen; exact ⟨hlen, hgood⟩
  | cons s ss ih =>
      intro toks rem hnd hrem hsyll hgood hlen
      rw [blocksFold]
      have htk : (rem.take s.toNat).Nodup := (List.take_sublist _ _).nodup hnd
      have hdr : (rem.drop s.toNat).Nodup := (List.drop_sublist _ _).nodup hnd
      have hdisj : ∀ j ∈ rem.drop s.toNat, j ∉ rem.take s.toNat := by
        intro j hj hc
        exact (List.disjoint_take_drop hnd (le_refl s.toNat)) hc hj
      refine ih _ _ hdr ?_ ?_ ?_ ?_
      · intro j hj
        rw [getElem?_wrapBlock_not_mem emph _ _ _ _ _ (hdisj j hj)]
        exact hrem j (List.mem_of_mem_drop hj)
      · intro j hj
        exact hsyll j (List.mem_of_mem_drop hj)
      · intro j
        by_cases hjb : j ∈ rem.take s.toNat
        · have hjrem : j ∈ rem := List.mem_of_mem_take hjb
          obtain ⟨t, ht, htt⟩ := hsyll j hjrem
          have hj0 : toks[j]? = some t := (hrem j hjrem).trans ht
          rcases getElem?_wrapBlock emph _ _ toks 0 j htk with h | h
          · exact Or.inl (h.trans ((hrem j hjrem)))
          · rw [hj0] at h
            exact Or.inr ⟨t, ht, htt, h⟩
        · rw [getElem?_wrapBlock_not_mem emph _ _ _ _ _ hjb]
          exact hgood j
      · rw [length_wrapBlock]; exact hlen

theorem mem_syllIdxs (tokens : List Token) (j : ℕ) (hj : j ∈ syllIdxs tokens) :
    ∃ t, tokens[j]? = some t ∧ t.type = TokType.syll := by
  unfold syllIdxs at hj
  have hp := (List.mem_filter.mp hj).2
  cases ht : tokens[j]? with
  | none => rw [ht] at hp; exact Bool.noConfusion hp
  | some t =>
      rw [ht] at hp
      exact ⟨t, rfl, by simpa using hp⟩

theorem nodup_syllIdxs (tokens : List Token) : (syllIdxs tokens).Nodup :=
  (List.nodup_range _).filter _

/-- Claim C5: for every emphasis predicate, every noise sequence and every
token list, the formatter rewrites each position either to the original token
or, when that token is syllable-kind, to the same token with its whole text
wrapped once in the `**` markers; separator tokens are never touched and no
token is wrapped twice.  The final `processText` string is exactly the
concatenation of these per-token texts. -/
theorem c5_marks_whole_tokens (emph : ℤ → Bool) (noise : ℕ → ℚ) (tokens : List Token) :
    (formatSyllablesToks emph noise tokens).length = tokens.length ∧
    (∀ j : ℕ, (formatSyllablesToks emph noise tokens)[j]? = tokens[j]? ∨
      ∃ t, tokens[j]? = some t ∧ t.type = TokType.syll ∧
        (formatSyllablesToks emph noise tokens)[j]? = some ⟨TokType.syll, mark t.text⟩) ∧
    (∀ text : Str, processText emph noise text =
      concatTexts (formatSyllablesToks emph noise (tokenizeToSyllables
        (adjustReadability text 74 82)))) := by
  have hmain := blocksFold_spec emph tokens
    (brownianBlockSizes noise (nBlocksFor (syllIdxs tokens).length) 21 4 12)
    tokens (syllIdxs tokens) (nodup_syllIdxs tokens)
    (fun _ _ => rfl) (fun j hj => mem_syllIdxs tokens j hj)
    (fun _ => Or.inl rfl) rfl
  have heq : formatSyllablesToks emph noise tokens =
      blocksFold emph tokens (syllIdxs tokens)
        (brownianBlockSizes noise (nBlocksFor (syllIdxs tokens).length) 21 4 12) := rfl
  rw [heq]
  refine ⟨hmain.1, ?_, fun _ => rfl⟩
  intro j
  rcases hmain.2 j with h | ⟨t, ht, htt, hw⟩
  · exact Or.inl h
  · refine Or.inr ⟨t, ht, htt, ?_⟩
    rw [hw]
    unfold wrapFn
    rw [htt]

theorem formatSyllablesToks_noise_free (emph : ℤ → Bool) (noise1 noise2 : ℕ → ℚ)
    (tokens : List Token) (h : (syllIdxs tokens).length ≤ 21) :
    formatSyllablesToks emph noise1 tokens = formatSyllablesToks emph noise2 tokens := by
  unfold formatSyllablesToks brownianBlockSizes
  rw [blocksFold, blocksFold]
  have h21 : ((21 : ℤ)).toNat = 21 := rfl
  have hdrop : (syllIdxs tokens).drop ((21 : ℤ)).toNat = [] := by
    rw [h21]; exact List.drop_eq_nil_of_le h
  rw [hdrop, blocksFold_nil_rem, blocksFold_nil_rem]

/-- Claim C10: when the adjusted and tokenized text has at most 21 syllable
tokens, only the first block (the fixed unclamped base 21) covers any
syllables, so the output of `processText` does not depend on the noise
sequence at all. -/
theorem c10_noise_independent (emph : ℤ → Bool) (noise1 noise2 : ℕ → ℚ) (text : Str)
    (h : (syllIdxs (tokenizeToSyllables (adjustReadability text 74 82))).length ≤ 21) :
    processText emph noise1 text = processText emph noise2 text := by
  unfold processText formatSyllables
  rw [formatSyllablesToks_noise_free emph noise1 noise2 _ h]

unseal Rat.add Rat.sub Rat.mul Rat.inv Rat.ofScientific in
/-- Witness for C10: the input `cat` has a single syllable token and two
different concrete noise sequences give the same output. -/
theorem c10_witness :
    (syllIdxs (tokenizeToSyllables (adjustReadability (str "cat") 74 82))).length ≤ 21 ∧
    processText (fun d => decide (d = 0)) (fun _ => (0:ℚ)) (str "cat") =
      processText (fun d => decide (d = 0)) (fun _ => (1:ℚ)) (str "cat") :=
  ⟨by decide,
    c10_noise_independent (fun d => decide (d = 0)) (fun _ => 0) (fun _ => 1)
      (str "cat") (by decide)⟩

/-! ## Claim C4 -/

theorem mem_srGo_not_p (p : Char → Bool) :
    ∀ (l : Str) (st : Option Str),
      (∀ cur, st = some cur → ∀ c ∈ cur, p c = false) →
      ∀ w ∈ srGo p st l, ∀ c ∈ w, p c = false := by
  intro l
  induction l with
  | nil =>
      intro st hst w hw c hc
      cases st with
      | none =>
          simp only [srGo, List.mem_singleton] at hw
          subst hw
          simp at hc
      | some cur =>
          simp only [srGo, List.mem_singleton] at hw
          subst hw
          exact hst cur rfl c (List.mem_reverse.mp hc)
  | cons ch r ih =>
      intro st hst w hw c hc
      cases st with
      | none =>
          rw [srGo] at hw
          by_cases h : p ch = true
          · rw [if_pos h] at hw
            exact ih none (fun cur hcur => Option.noConfusion hcur) w hw c hc
          · rw [if_neg h] at hw
            refine ih (some [ch]) ?_ w hw c hc
            intro cur hcur d hd
            injection hcur with hcur
            subst hcur
            rcases List.mem_singleton.mp hd with rfl
            exact Bool.eq_false_iff.mpr h
      | some cur =>
          rw [srGo] at hw
          by_cases h : p ch = true
          · rw [if_pos h] at hw
            rcases List.mem_cons.mp hw with hw | hw
            · subst hw
              exact hst cur rfl c (List.mem_reverse.mp hc)
            · exact ih none (fun cur' hcur => Option.noConfusion hcur) w hw c hc
          · rw [if_neg h] at hw
            refine ih (some (ch :: cur)) ?_ w hw c hc
            intro cur' hcur d hd
            injection hcur with hcur
            subst hcur
            rcases List.mem_cons.mp hd with rfl | hd
            · exact Bool.eq_false_iff.mpr h
            · exact hst cur rfl d hd

theorem mem_srGo_ne_nil (p : Char → Bool) :
    ∀ (l : Str),
      (∀ c : Char, l.getLast? = some c → p c = false) →
      (∀ cur : Str, cur ≠ [] → ∀ w ∈ srGo p (some cur) l, w ≠ []) ∧
      (l ≠ [] → ∀ w ∈ srGo p none l, w ≠ []) := by
  intro l
  induction l with
  | nil =>
      intro _
      constructor
      · intro cur hcur w hw
        simp only [srGo, List.mem_singleton] at hw
        subst hw
        simpa using hcur
      · intro hne
        exact absurd rfl hne
  | cons ch r ih =>
      intro hlast
      have hlast' : ∀ c, r.getLast? = some c → p c = false := by
        intro c hc
        apply hlast c
        cases r with
        | nil => exact Option.noConfusion hc
        | cons b rs => rw [List.getLast?_cons_cons]; exact hc
      obtain ⟨ihs, ihn⟩ := ih hlast'
      have hrne : p ch = true → r ≠ [] := by
        intro h hr0
        subst hr0
        have := hlast ch (by simp)
        rw [h] at this
        exact Bool.noConfusion this
      constructor
      · intro cur hcur w hw
        rw [srGo] at hw
        by_cases h : p ch = true
        · rw [if_pos h] at hw
          rcases List.mem_cons.mp hw with hw | hw
          · subst hw; simpa using hcur
          · exact ihn (hrne h) w hw
        · rw [if_neg h] at hw
          exact ihs (ch :: cur) (by simp) w hw
      · intro _ w hw
        rw [srGo] at hw
        by_cases h : p ch = true
        · rw [if_pos h] at hw
          exact ihn (hrne h) w hw
        · rw [if_neg h] at hw
          exact ihs [ch] (by simp) w hw

theorem dropWhile_eq_self_head (p : Char → Bool) (l : Str) (h : l.dropWhile p = l) :
    ∀ c, l.head? = some c → p c = false := by
  intro c hc
  cases l with
  | nil => exact Option.noConfusion hc
  | cons a r =>
      have ha : p a = false := by
        cases hpc : p a with
        | false => rfl
        | true =>
            rw [List.dropWhile_cons, if_pos hpc] at h
            have hlen := congrArg List.length h
            have hle : (r.dropWhile p).length ≤ r.length :=
              (List.dropWhile_sublist p).length_le
            simp only [List.length_cons] at hlen
            omega
      have hac : a = c := by injection hc
      rw [← hac]
      exact ha

theorem trim_eq_self_parts (l : Str) (h : trim l = l) :
    l.dropWhile isSpaceCh = l ∧ l.reverse.dropWhile isSpaceCh = l.reverse := by
  unfold trim at h
  have h1le : (l.dropWhile isSpaceCh).length ≤ l.length :=
    (List.dropWhile_sublist isSpaceCh).length_le
  have h2le : ((l.dropWhile isSpaceCh).reverse.dropWhile isSpaceCh).length ≤
      (l.dropWhile isSpaceCh).length := by
    have := (List.dropWhile_sublist (l := (l.dropWhile isSpaceCh).reverse) isSpaceCh).length_le
    rwa [List.length_reverse] at this
  have hlen := congrArg List.length h
  rw [List.length_reverse] at hlen
  have e1 : (l.dropWhile isSpaceCh).length = l.length := by omega
  have hdw : l.dropWhile isSpaceCh = l :=
    (List.dropWhile_sublist isSpaceCh).eq_of_length e1
  refine ⟨hdw, ?_⟩
  rw [hdw] at h
  have := congrArg List.reverse h
  rwa [List.reverse_reverse] at this

theorem trim_eq_self_of (l : Str)
    (hh : ∀ c, l.head? = some c → isSpaceCh c = false)
    (hl : ∀ c, l.getLast? = some c → isSpaceCh c = false) : trim l = l := by
  have h1 : l.dropWhile isSpaceCh = l := by
    cases l with
    | nil => rfl
    | cons a r => simp [List.dropWhile_cons, hh a rfl]
  have h2 : l.reverse.dropWhile isSpaceCh = l.reverse := by
    cases hr : l.reverse with
    | nil => rfl
    | cons a r =>
        have ha : isSpaceCh a = false := by
          apply hl
          rw [← List.head?_reverse, hr]
          rfl
        simp [List.dropWhile_cons, ha]
  unfold trim
  rw [h1, h2, List.reverse_reverse]

theorem joinSp_ne_nil :
    ∀ (ws : List Str), ws ≠ [] → (∀ w ∈ ws, w ≠ []) → joinSp ws ≠ [] := by
  intro ws
  cases ws with
  | nil => intro h; exact absurd rfl h
  | cons w rest =>
      intro _ hall
      cases rest with
      | nil => exact hall w (by simp)
      | cons x xs => simp [joinSp]

theorem head_mem_joinSp :
    ∀ (ws : List Str) (w0 : Str), ws.head? = some w0 → w0 ≠ [] →
      ∃ c, (joinSp ws).head? = some c ∧ c ∈ w0 := by
  intro ws w0 hhead hne
  cases ws with
  | nil => exact Option.noConfusion hhead
  | cons w rest =>
      cases w0 with
      | nil => exact absurd rfl hne
      | cons a w' =>
          have hw : w = a :: w' := by injection hhead
          subst hw
          cases rest with
          | nil => exact ⟨a, rfl, by simp⟩
          | cons x xs => exact ⟨a, rfl, by simp⟩

theorem getLast_mem_joinSp :
    ∀ (ws : List Str), ws ≠ [] → (∀ w ∈ ws, w ≠ []) →
      ∃ c w, (joinSp ws).getLast? = some c ∧ w ∈ ws ∧ c ∈ w := by
  intro ws
  induction ws with
  | nil => intro h; exact absurd rfl h
  | cons w rest ih =>
      intro _ hall
      cases rest with
      | nil =>
          have hw : w ≠ [] := hall w (by simp)
          obtain ⟨c, hc⟩ : ∃ c, w.getLast? = some c := by
            cases hgl : w.getLast? with
            | none => exact absurd (List.getLast?_eq_none_iff.mp hgl) hw
            | some c => exact ⟨c, rfl⟩
          exact ⟨c, w, hc, by simp, List.mem_of_mem_getLast? (by rw [hc]; rfl)⟩
      | cons x xs =>
          have hrest_ne : (x :: xs : List Str) ≠ [] := by simp
          have hrest_all : ∀ w' ∈ x :: xs, w' ≠ [] := by
            intro w' hw'
            exact hall w' (List.mem_cons_of_mem w hw')
          obtain ⟨c, w', hc, hw', hcw⟩ := ih hrest_ne hrest_all
          refine ⟨c, w', ?_, List.mem_cons_of_mem w hw', hcw⟩
          have hj : joinSp (x :: xs) ≠ [] := joinSp_ne_nil _ hrest_ne hrest_all
          have hstep : joinSp (w :: x :: xs) = w ++ ' ' :: joinSp (x :: xs) := rfl
          rw [hstep, List.getLast?_append]
          cases hjj : joinSp (x :: xs) with
          | nil => exact absurd hjj hj
          | cons b j' =>
              rw [List.getLast?_cons_cons]
              rw [hjj] at hc
              rw [hc]
              rfl

/-- Claim C4, amended: the unamended claim fails on one-word sentences (see
the counterexample below, where the bisection produces a single group, not
two).  For every out-of-band single-sentence text with no comma and at least
two words, the adjuster bisects it into exactly two nonempty word groups: the
first group holds the first `floor(n / 2)` words and the second group the
remaining words, each group joined with single spaces, and the adjusted output
is the two groups joined by a single space. -/
theorem c4_bisect_two_words (text : Str) (lower upper : ℚ)
    (hone : splitAdjust text = [text])
    (htrim : trim text = text)
    (hne : text ≠ [])
    (hband : ¬(lower ≤ fleschReadingEase text ∧ fleschReadingEase text ≤ upper))
    (hcomma : (splitComma text).length ≤ 1)
    (hwords : 2 ≤ (splitRuns isSpaceCh text).length) :
    sentenceParts lower upper text =
      [joinSp ((splitRuns isSpaceCh text).take ((splitRuns isSpaceCh text).length / 2)),
       joinSp ((splitRuns isSpaceCh text).drop ((splitRuns isSpaceCh text).length / 2))] ∧
    joinSp ((splitRuns isSpaceCh text).take ((splitRuns isSpaceCh text).length / 2)) ≠ [] ∧
    joinSp ((splitRuns isSpaceCh text).drop ((splitRuns isSpaceCh text).length / 2)) ≠ [] ∧
    adjustReadability text lower upper =
      joinSp ((splitRuns isSpaceCh text).take ((splitRuns isSpaceCh text).length / 2)) ++
        ' ' :: joinSp ((splitRuns isSpaceCh text).drop ((splitRuns isSpaceCh text).length / 2)) := by
  have hparts := trim_eq_self_parts text htrim
  have hhead : ∀ c, text.head? = some c → isSpaceCh c = false :=
    dropWhile_eq_self_head isSpaceCh text hparts.1
  have hlast : ∀ c, text.getLast? = some c → isSpaceCh c = false := by
    intro c hc
    refine dropWhile_eq_self_head isSpaceCh text.reverse hparts.2 c ?_
    rw [List.head?_reverse]
    exact hc
  have hws_nosp : ∀ w ∈ splitRuns isSpaceCh text, ∀ c ∈ w, isSpaceCh c = false := by
    refine mem_srGo_not_p isSpaceCh text (some []) ?_
    intro cur hcur c hc
    injection hcur with hcur
    subst hcur
    simp at hc
  have hws_ne : ∀ w ∈ splitRuns isSpaceCh text, w ≠ [] := by
    cases htext : text with
    | nil => exact absurd htext hne
    | cons a r =>
        have ha : isSpaceCh a = false := by
          apply hhead
          rw [htext]
          rfl
        have hlast' : ∀ c, r.getLast? = some c → isSpaceCh c = false := by
          intro c hc
          apply hlast c
          rw [htext]
          cases r with
          | nil => exact Option.noConfusion hc
          | cons b rs => rw [List.getLast?_cons_cons]; exact hc
        intro w hw
        unfold splitRuns at hw
        rw [srGo, if_neg (by rw [ha]; exact Bool.noConfusion)] at hw
        exact (mem_srGo_ne_nil isSpaceCh r hlast').1 [a] (by simp) w hw
  obtain ⟨ws, hws⟩ : ∃ ws, splitRuns isSpaceCh text = ws := ⟨_, rfl⟩
  rw [hws] at hws_nosp hws_ne hwords ⊢
  have htake_ne : ws.take (ws.length / 2) ≠ [] := by
    intro hc
    have := congrArg List.length hc
    simp only [List.length_take, List.length_nil] at this
    omega
  have hdrop_ne : ws.drop (ws.length / 2) ≠ [] := by
    intro hc
    have := congrArg List.length hc
    simp only [List.length_drop, List.length_nil] at this
    omega
  have htake_all : ∀ w ∈ ws.take (ws.length / 2), w ≠ [] :=
    fun w hw => hws_ne w (List.mem_of_mem_take hw)
  have hdrop_all : ∀ w ∈ ws.drop (ws.length / 2), w ≠ [] :=
    fun w hw => hws_ne w (List.mem_of_mem_drop hw)
  have hg1_ne : joinSp (ws.take (ws.length / 2)) ≠ [] :=
    joinSp_ne_nil _ htake_ne htake_all
  have hg2_ne : joinSp (ws.drop (ws.length / 2)) ≠ [] :=
    joinSp_ne_nil _ hdrop_ne hdrop_all
  have htrim_join : ∀ gs : List Str, gs ≠ [] → (∀ w ∈ gs, w ≠ []) →
      (∀ w ∈ gs, ∀ c ∈ w, isSpaceCh c = false) → trim (joinSp gs) = joinSp gs := by
    intro gs hgs hgs_ne hgs_nosp
    apply trim_eq_self_of
    · intro c hc
      cases gs with
      | nil => exact absurd rfl hgs
      | cons g gs' =>
          have hg : g ≠ [] := hgs_ne g (by simp)
          obtain ⟨c', hc', hcg⟩ := head_mem_joinSp (g :: gs') g rfl hg
          rw [hc] at hc'
          injection hc' with hc'
          subst hc'
          exact hgs_nosp g (by simp) c hcg
    · intro c hc
      obtain ⟨c', w', hc', hw', hcw⟩ := getLast_mem_joinSp gs hgs hgs_ne
      rw [hc] at hc'
      injection hc' with hc'
      subst hc'
      exact hgs_nosp w' hw' c hcw
  have hg1_trim : trim (joinSp (ws.take (ws.length / 2))) =
      joinSp (ws.take (ws.length / 2)) :=
    htrim_join _ htake_ne htake_all
      (fun w hw c hc => hws_nosp w (List.mem_of_mem_take hw) c hc)
  have hg2_trim : trim (joinSp (ws.drop (ws.length / 2))) =
      joinSp (ws.drop (ws.length / 2)) :=
    htrim_join _ hdrop_ne hdrop_all
      (fun w hw c hc => hws_nosp w (List.mem_of_mem_drop hw) c hc)
  have hsp : sentenceParts lower upper text =
      [joinSp (ws.take (ws.length / 2)), joinSp (ws.drop (ws.length / 2))] := by
    unfold sentenceParts
    rw [htrim, if_neg hne, if_neg hband, if_pos hcomma, hws]
    simp only [List.map_cons, List.map_nil, hg1_trim, hg2_trim]
    rw [List.filter_cons_of_pos (by simpa using hg1_ne),
      List.filter_cons_of_pos (by simpa using hg2_ne)]
    rfl
  refine ⟨hsp, hg1_ne, hg2_ne, ?_⟩
  unfold adjustReadability
  rw [if_neg hne, if_neg hband, hone]
  simp only [List.flatMap_cons, List.flatMap_nil, List.append_nil]
  rw [hsp]
  rfl

unseal Rat.add Rat.sub Rat.mul Rat.inv Rat.ofScientific in
/-- Claim C4 as stated is false on the one-word sentence `Strength`: it is a
single out-of-band sentence with no comma, yet the bisection produces the
parts `["", "Strength"]`, the empty first part is discarded, and the output is
the single group `Strength` and not two word groups rejoined with a single
space (the output contains no space at all). -/
theorem c4_counterexample :
    trim (str "Strength") = str "Strength" ∧
    splitAdjust (str "Strength") = [str "Strength"] ∧
    ¬((74:ℚ) ≤ fleschReadingEase (str "Strength") ∧
        fleschReadingEase (str "Strength") ≤ 82) ∧
    (splitComma (str "Strength")).length ≤ 1 ∧
    adjustReadability (str "Strength") 74 82 = str "Strength" ∧
    ¬ ∃ g1 g2 : Str, g1 ≠ [] ∧ g2 ≠ [] ∧
        adjustReadability (str "Strength") 74 82 = g1 ++ ' ' :: g2 := by
  refine ⟨by decide, by decide, by decide, by decide, by decide, ?_⟩
  rintro ⟨g1, g2, -, -, h⟩
  rw [show adjustReadability (str "Strength") 74 82 = str "Strength" by decide] at h
  have hsp : ' ' ∈ str "Strength" := by
    rw [h]
    exact List.mem_append.mpr (Or.inr (List.mem_cons_self _ _))
  exact absurd hsp (by decide)

unseal Rat.add Rat.sub Rat.mul Rat.inv Rat.ofScientific in
/-- Witness for the amended C4 on the two-word out-of-band sentence
`Jump high`. -/
theorem c4_witness :
    (splitAdjust (str "Jump high") = [str "Jump high"] ∧
     trim (str "Jump high") = str "Jump high" ∧
     str "Jump high" ≠ ([] : Str) ∧
     ¬((74:ℚ) ≤ fleschReadingEase (str "Jump high") ∧
         fleschReadingEase (str "Jump high") ≤ 82) ∧
     (splitComma (str "Jump high")).length ≤ 1 ∧
     2 ≤ (splitRuns isSpaceCh (str "Jump high")).length) ∧
    (sentenceParts 74 82 (str "Jump high") = [str "Jump", str "high"] ∧
     str "Jump" ≠ ([] : Str) ∧
     str "high" ≠ ([] : Str) ∧
     adjustReadability (str "Jump high") 74 82 = str "Jump" ++ ' ' :: str "high") :=
  ⟨⟨by decide, by decide, by decide, by decide, by decide, by decide⟩,
   c4_bisect_two_words (str "Jump high") 74 82 (by decide) (by decide) (by decide)
     (by decide) (by decide) (by decide)⟩

end DysFormat
